import Mathlib

/-!
Verification of the News-RAG retrieval core.

This file shallowly embeds the retrieval pipeline of the repository:
the sentence chunker (`text_processing/text_chunker.py`), the text cleaner
(`text_processing/text_cleaner.py`), the FAISS index manager
(`vector_db/faiss_manager.py`), the retriever (`vector_db/retriever.py`),
the embedding store (`embeddings/embedding_generator.py`) and the answer
synthesizer (`llm_integration/rag_generator.py`).

Strings are modelled as `List Char`, floats as `ℚ`, the SQLite tables as
association lists, and external collaborators (the sentence-transformer
model, the OpenAI backend, the FAISS library search) as explicit parameters
whose documented behaviour is embedded.  Python regular-expression
substitutions are translated into recursive scanners over `List Char`;
the character classes `\s` and `\d` are modelled by their ASCII fragment.
-/

namespace NewsRAG

/- Rational arithmetic is used to model Python floats; restoring the
default reducibility of the four sealed `Rat` operations lets concrete
runs of the embedded code be checked by `decide`. -/
attribute [local semireducible] Rat.mul Rat.add Rat.sub Rat.inv

/-! ### Python string primitives (ASCII fragment) -/

/-- ASCII fragment of Python's `\s` character class / `str.strip` default set. -/
def pyWs (c : Char) : Bool :=
  c = ' ' || c = '\t' || c = '\n' || c = '\r' || c = '\x0b' || c = '\x0c'

/-- ASCII fragment of Python's `\d` character class. -/
def isDigitC (c : Char) : Bool := '0' ≤ c && c ≤ '9'

/-- ASCII letters, the `[A-Za-z]` class. -/
def isAlphaC (c : Char) : Bool := ('a' ≤ c && c ≤ 'z') || ('A' ≤ c && c ≤ 'Z')

/-- Python `str.strip()`: drop leading and trailing whitespace. -/
def pyStrip (s : List Char) : List Char :=
  ((s.dropWhile pyWs).reverse.dropWhile pyWs).reverse

/-- Word-count worker, structurally recursive on a fuel bounded by the
remaining length (the fuel never runs out on the call from `wordCount`). -/
def wordCountGo : Nat → List Char → Nat
  | _, [] => 0
  | 0, _ :: _ => 0
  | fuel + 1, c :: rest =>
    if pyWs c then wordCountGo fuel rest
    else 1 + wordCountGo fuel (rest.dropWhile (fun x => !(pyWs x)))

/-- Number of whitespace-separated words, Python `len(s.split())`. -/
def wordCount (s : List Char) : Nat := wordCountGo s.length s

/-- The `[.!?]` sentence-ending class of `TextChunker.sentence_endings`. -/
def isSentEnd (c : Char) : Bool := c = '.' || c = '!' || c = '?'

/-- `" ".join(l)` on a list of character lists. -/
def joinSp : List (List Char) → List Char
  | [] => []
  | [s] => s
  | s :: rest => s ++ ' ' :: joinSp rest

/-! ### `re.split(r'[.!?]+\s+', text)`

The splitter is a three-state scanner: inside a token, inside a run of
sentence-ending punctuation, or inside the whitespace of a confirmed
separator.  A separator is a maximal `[.!?]+` run immediately followed by at
least one whitespace character; the separator is dropped, everything else
is token text.  `toks` accumulates finished tokens, `cur` is the current
token reversed, `p` the pending punctuation run reversed. -/

mutual

def splitSentAux (toks : List (List Char)) (cur : List Char)
    (p : Option (List Char)) : List Char → List (List Char)
  | [] =>
    match p with
    | none => toks ++ [cur.reverse]
    | some pr => toks ++ [(pr ++ cur).reverse]
  | c :: rest =>
    match p with
    | none =>
      if isSentEnd c then splitSentAux toks cur (some [c]) rest
      else splitSentAux toks (c :: cur) none rest
    | some pr =>
      if isSentEnd c then splitSentAux toks cur (some (c :: pr)) rest
      else if pyWs c then splitSentSep (toks ++ [cur.reverse]) rest
      else splitSentAux toks (c :: (pr ++ cur)) none rest

def splitSentSep (toks : List (List Char)) : List Char → List (List Char)
  | [] => toks ++ [[]]
  | c :: rest =>
    if pyWs c then splitSentSep toks rest
    else if isSentEnd c then splitSentAux toks [] (some [c]) rest
    else splitSentAux toks [c] none rest

end

/-- `re.split` of the chunker's sentence-boundary pattern on `text`. -/
def splitSentences (text : List Char) : List (List Char) :=
  splitSentAux [] [] none text

/-- `sentences = [s.strip() for s in sentences if s.strip()]`. -/
def sentencesOf (text : List Char) : List (List Char) :=
  ((splitSentences text).map pyStrip).filter (fun s => s ≠ [])

/-! ### `TextChunker` -/

/-- Constructor parameters of `TextChunker`. -/
structure ChunkParams where
  chunk_size : Nat
  overlap_size : Nat
  min_chunk_size : Nat
deriving DecidableEq

/-- The `TextChunk` dataclass; the dict metadata is inlined as the
`word_count`/`char_count` fields that `_create_chunk` stores in it. -/
structure TextChunk where
  content : List Char
  chunk_id : String
  article_id : String
  start_pos : Int
  end_pos : Int
  chunk_index : Nat
  word_count : Nat
  char_count : Nat
deriving DecidableEq

/-- `TextChunker._create_chunk`. -/
def createChunk (content : List Char) (aid : String) (idx : Nat)
    (sp : Int) : TextChunk :=
  { content := pyStrip content
    chunk_id := aid ++ "_chunk_" ++ toString idx
    article_id := aid
    start_pos := sp
    end_pos := sp + content.length
    chunk_index := idx
    word_count := wordCount content
    char_count := content.length }

/-- Loop body of `_get_overlap_sentences`: walk the reversed sentence list,
taking sentences while the accumulated length stays within the budget,
stopping at the first one that does not fit. -/
def overlapLoop : List (List Char) → Nat → Nat → List (List Char)
  | [], _, _ => []
  | s :: rest, target, ovLen =>
    if ovLen + s.length ≤ target then s :: overlapLoop rest target (ovLen + s.length)
    else []

/-- `TextChunker._get_overlap_sentences`: the kept sentences are re-inserted
at the front, so the result is in original order. -/
def get_overlap_sentences (sentences : List (List Char)) (target : Nat) :
    List (List Char) :=
  (overlapLoop sentences.reverse target 0).reverse

/-- The chunking loop's mutable locals. -/
structure ChunkState where
  chunks : List TextChunk
  current_chunk : List Char
  current_sentences : List (List Char)
  chunk_index : Nat
  start_pos : Int
deriving DecidableEq

/-- One iteration of the `for i, sentence in enumerate(sentences)` loop of
`chunk_by_sentences`.  Note that the final `current_chunk := potential`
assignment is unconditional in the source, so after a close it overwrites
the overlap-seeded buffer with the old buffer plus the new sentence. -/
def chunkStep (p : ChunkParams) (textLen : Nat) (aid : String)
    (st : ChunkState) (sentence : List Char) : ChunkState :=
  let potential :=
    if st.current_chunk ≠ [] then st.current_chunk ++ ' ' :: sentence
    else sentence
  let st1 :=
    if potential.length > p.chunk_size ∧ st.current_chunk ≠ [] then
      let chunk := createChunk st.current_chunk aid st.chunk_index st.start_pos
      let ov := get_overlap_sentences st.current_sentences p.overlap_size
      { chunks := st.chunks ++ [chunk]
        current_chunk := joinSp ov
        current_sentences := ov
        chunk_index := st.chunk_index + 1
        start_pos := (textLen : Int) - (joinSp ov).length }
    else st
  { st1 with
    current_chunk := potential
    current_sentences := st1.current_sentences ++ [sentence] }

/-- `TextChunker.chunk_by_sentences`. -/
def chunk_by_sentences (p : ChunkParams) (text : List Char) (aid : String) :
    List TextChunk :=
  if text = [] ∨ (pyStrip text).length < p.min_chunk_size then []
  else
    let sentences := sentencesOf text
    let st := sentences.foldl (chunkStep p text.length aid)
      ⟨[], [], [], 0, 0⟩
    if st.current_chunk ≠ [] ∧ p.min_chunk_size ≤ st.current_chunk.length then
      st.chunks ++ [createChunk st.current_chunk aid st.chunk_index st.start_pos]
    else st.chunks

/-! ### Whitespace-stripping lemmas -/

/-- A string with no leading and no trailing Python whitespace. -/
def cleanEdges (s : List Char) : Prop :=
  s.dropWhile pyWs = s ∧ s.reverse.dropWhile pyWs = s.reverse

theorem cleanEdges_nil : cleanEdges ([] : List Char) := ⟨rfl, rfl⟩

theorem dropWhile_dropWhile (p : Char → Bool) (l : List Char) :
    (l.dropWhile p).dropWhile p = l.dropWhile p := by
  induction l with
  | nil => rfl
  | cons h t ih =>
    by_cases hp : p h <;> simp [List.dropWhile_cons, hp, ih]

theorem dropWhile_head_false (p : Char → Bool) (l : List Char) (h : Char)
    (t : List Char) (heq : l.dropWhile p = h :: t) : p h = false := by
  induction l with
  | nil => simp [List.dropWhile] at heq
  | cons a l ih =>
    rw [List.dropWhile_cons] at heq
    by_cases hp : p a
    · rw [if_pos hp] at heq; exact ih heq
    · rw [if_neg hp] at heq
      cases heq
      exact Bool.eq_false_iff.mpr hp

theorem dropWhile_self_append (p : Char → Bool) (a b : List Char)
    (ha : a.dropWhile p = a) (hne : a ≠ []) :
    (a ++ b).dropWhile p = a ++ b := by
  cases a with
  | nil => exact absurd rfl hne
  | cons h t =>
    have hp : p h = false := by
      by_cases hph : p h
      · rw [List.dropWhile_cons, if_pos hph] at ha
        have h1 := congrArg List.length ha
        have h2 := (List.dropWhile_sublist (p := p) (l := t)).length_le
        simp at h1; omega
      · exact Bool.eq_false_iff.mpr hph
    simp [List.dropWhile_cons, hp]

theorem pyStrip_eq_of_cleanEdges (s : List Char) (h : cleanEdges s) :
    pyStrip s = s := by
  unfold pyStrip
  rw [h.1, h.2, List.reverse_reverse]

theorem cleanEdges_pyStrip (s : List Char) : cleanEdges (pyStrip s) := by
  constructor
  · show (pyStrip s).dropWhile pyWs = pyStrip s
    unfold pyStrip
    set a := s.dropWhile pyWs with ha
    set b := a.reverse.dropWhile pyWs with hb
    have hsuf : b <:+ a.reverse := hb ▸ List.dropWhile_suffix pyWs
    have hpre : b.reverse <+: a := List.reverse_suffix.mp (by simpa using hsuf)
    match hrev : b.reverse with
    | [] => simp
    | h :: t =>
      obtain ⟨r, hr⟩ := hpre
      rw [hrev] at hr
      have hhd : pyWs h = false :=
        dropWhile_head_false pyWs s h (t ++ r) (by rw [← ha, ← hr]; simp)
      simp [List.dropWhile_cons, hhd]
  · unfold pyStrip
    rw [List.reverse_reverse]
    exact dropWhile_dropWhile pyWs _

theorem cleanEdges_append (a b : List Char) (ha : cleanEdges a)
    (hb : cleanEdges b) (hna : a ≠ []) (hnb : b ≠ []) :
    cleanEdges (a ++ ' ' :: b) := by
  constructor
  · exact dropWhile_self_append pyWs a (' ' :: b) ha.1 hna
  · have hrev : (a ++ ' ' :: b).reverse = b.reverse ++ ([' '] ++ a.reverse) := by
      simp
    rw [hrev]
    exact dropWhile_self_append pyWs b.reverse ([' '] ++ a.reverse) hb.2
      (by simpa using hnb)

/-! ### Chunk-loop invariant -/

/-- Invariant of the `chunk_by_sentences` loop: the running buffer has clean
edges, and once any chunk has been emitted the running buffer is strictly
longer than `chunk_size` (the buffer only ever grows, because the
unconditional `current_chunk = potential_chunk` assignment keeps the full
accumulated text). -/
def chunkInv (p : ChunkParams) (st : ChunkState) : Prop :=
  cleanEdges st.current_chunk ∧
  (st.chunks ≠ [] → p.chunk_size < st.current_chunk.length)

theorem chunkStep_inv (p : ChunkParams) (tl : Nat) (aid : String)
    (st : ChunkState) (s : List Char) (hs : cleanEdges s) (hsne : s ≠ [])
    (h : chunkInv p st) : chunkInv p (chunkStep p tl aid st s) := by
  have hpc : cleanEdges (if st.current_chunk ≠ [] then
      st.current_chunk ++ ' ' :: s else s) := by
    by_cases hne : st.current_chunk = []
    · simp [hne, hs]
    · rw [if_pos hne]
      exact cleanEdges_append _ _ h.1 hs hne hsne
  have hplen : st.current_chunk.length ≤
      (if st.current_chunk ≠ [] then st.current_chunk ++ ' ' :: s else s).length := by
    by_cases hne : st.current_chunk = []
    · simp [hne]
    · rw [if_pos hne]; simp
  unfold chunkStep
  dsimp only
  by_cases hclose : (if st.current_chunk ≠ [] then
      st.current_chunk ++ ' ' :: s else s).length > p.chunk_size ∧
      st.current_chunk ≠ []
  · rw [if_pos hclose]
    exact ⟨hpc, fun _ => hclose.1⟩
  · rw [if_neg hclose]
    refine ⟨hpc, fun hch => ?_⟩
    exact lt_of_lt_of_le (h.2 hch) hplen

theorem chunkRun_inv (p : ChunkParams) (tl : Nat) (aid : String) :
    ∀ (sents : List (List Char)) (st : ChunkState),
    (∀ s ∈ sents, cleanEdges s ∧ s ≠ []) → chunkInv p st →
    chunkInv p (sents.foldl (chunkStep p tl aid) st)
  | [], _, _, h => h
  | s :: rest, st, hs, h => by
    rw [List.foldl_cons]
    exact chunkRun_inv p tl aid rest _
      (fun x hx => hs x (List.mem_cons_of_mem _ hx))
      (chunkStep_inv p tl aid st s (hs s (List.mem_cons_self _ _)).1
        (hs s (List.mem_cons_self _ _)).2 h)

theorem sentencesOf_spec (text : List Char) :
    ∀ s ∈ sentencesOf text, cleanEdges s ∧ s ≠ [] := by
  intro s hs
  unfold sentencesOf at hs
  rw [List.mem_filter] at hs
  obtain ⟨hmem, hne⟩ := hs
  rw [List.mem_map] at hmem
  obtain ⟨x, -, rfl⟩ := hmem
  exact ⟨cleanEdges_pyStrip x, by simpa using hne⟩

/-! ### Claims C1, C2, C3 -/

/-- Claim C1: the overlap property fails in the code.  For the input below
(`chunk_size = 25`, `overlap_size = 10`, `min_chunk_size = 1`), the overlap
selected from chunk 0's sentences `["Alpha beta", "Gamma"]` is `["Gamma"]`,
but chunk 1's content is the whole of chunk 0 followed by the next sentence,
so it does not start with the overlap: the unconditional
`current_chunk = potential_chunk` assignment (line 69 of
`text_chunker.py`) overwrites the overlap-seeded buffer. -/
theorem C1_overlap_overwritten :
    (chunk_by_sentences ⟨25, 10, 1⟩
        "Alpha beta. Gamma. Delta epsilon zeta.".toList "a").map
        (fun c => c.content) =
      ["Alpha beta Gamma".toList,
       "Alpha beta Gamma Delta epsilon zeta.".toList] ∧
    get_overlap_sentences ["Alpha beta".toList, "Gamma".toList] 10 =
      ["Gamma".toList] ∧
    ("Alpha beta Gamma Delta epsilon zeta.".toList).take
        ("Gamma".toList).length ≠ "Gamma".toList := by
  refine ⟨by decide, by decide, by decide⟩

/-- Claim C2: the bound `len(chunk) ≤ chunk_size + length(one sentence)`
fails.  With `chunk_size = 10` and five sentences of lengths
`[6, 6, 6, 6, 7]`, the produced chunks have lengths `[6, 13, 20, 27, 35]`:
the third chunk (length 20) already exceeds
`chunk_size + longest sentence = 17`, because each chunk keeps the whole
previous buffer (the same overwrite bug as C1). -/
theorem C2_chunk_length_unbounded :
    (chunk_by_sentences ⟨10, 3, 5⟩
        "abcdef. ghijkl. mnopqr. stuvwx. yzabcd.".toList "a").map
        (fun c => c.content.length) = [6, 13, 20, 27, 35] ∧
    (sentencesOf "abcdef. ghijkl. mnopqr. stuvwx. yzabcd.".toList).map
        List.length = [6, 6, 6, 6, 7] ∧
    10 + 7 < 20 := by
  refine ⟨by decide, by decide, by decide⟩

/-- Claim C3 (counterexample): a chunk shorter than `min_chunk_size` is
emitted.  With `chunk_size = 10`, `min_chunk_size = 5`, the text
`"Hi. abcdefghijk."` produces a first chunk `"Hi"` of length `2 < 5`:
chunks emitted on overflow are never length-checked. -/
theorem C3_short_chunk_emitted :
    (chunk_by_sentences ⟨10, 3, 5⟩ "Hi. abcdefghijk.".toList "a").map
      (fun c => c.content.length) = [2, 15] ∧ 2 < 5 := by
  refine ⟨by decide, by decide⟩

/-- Claim C3 (amended): only the final flushed chunk is checked against
`min_chunk_size`.  Whenever `min_chunk_size ≤ chunk_size`: input whose
stripped length is below `min_chunk_size` yields no chunks, and if the
result is nonempty its last chunk has content length at least
`min_chunk_size`.  Chunks other than the last may be arbitrarily short. -/
theorem C3_min_check_final_chunk_only (p : ChunkParams) (text : List Char)
    (aid : String) (hmin : p.min_chunk_size ≤ p.chunk_size) :
    ((pyStrip text).length < p.min_chunk_size →
      chunk_by_sentences p text aid = []) ∧
    (∀ c, (chunk_by_sentences p text aid).getLast? = some c →
      p.min_chunk_size ≤ c.content.length) := by
  unfold chunk_by_sentences
  by_cases hguard : text = [] ∨ (pyStrip text).length < p.min_chunk_size
  · rw [if_pos hguard]
    exact ⟨fun _ => rfl, fun c hc => by simp at hc⟩
  · rw [if_neg hguard]
    push_neg at hguard
    refine ⟨fun hlt => absurd hlt (by omega), ?_⟩
    intro c hc
    have hinv : chunkInv p ((sentencesOf text).foldl
        (chunkStep p text.length aid) ⟨[], [], [], 0, 0⟩) :=
      chunkRun_inv p text.length aid (sentencesOf text) _
        (sentencesOf_spec text) ⟨cleanEdges_nil, by simp⟩
    set st := (sentencesOf text).foldl (chunkStep p text.length aid)
      ⟨[], [], [], 0, 0⟩ with hst
    by_cases hflush : st.current_chunk ≠ [] ∧
        p.min_chunk_size ≤ st.current_chunk.length
    · rw [if_pos hflush, List.getLast?_concat] at hc
      obtain rfl : createChunk st.current_chunk aid st.chunk_index
          st.start_pos = c := by injection hc
      show p.min_chunk_size ≤ (pyStrip st.current_chunk).length
      rw [pyStrip_eq_of_cleanEdges _ hinv.1]
      exact hflush.2
    · rw [if_neg hflush] at hc
      exfalso
      have hne : st.chunks ≠ [] := by
        intro h0; rw [h0] at hc; simp at hc
      have hlen := hinv.2 hne
      exact hflush ⟨by intro h0; rw [h0] at hlen; simp at hlen, by omega⟩

/-- Witness for C3 (amended) at concrete parameters. -/
theorem C3_min_check_final_chunk_only_witness :
    5 ≤ (createChunk "Hi abcdefghijk.".toList "a" 1 14).content.length :=
  (C3_min_check_final_chunk_only ⟨10, 3, 5⟩ "Hi. abcdefghijk.".toList "a"
    (by decide)).2 _ (by decide)

/-! ### `FAISSManager` (`vector_db/faiss_manager.py`)

Vectors are lists of rationals; the SQLite lookup `_get_chunk_info` is a
parameter `db : String → ChunkInfo` (the source falls back to a stub dict
when the row is missing, which is just a particular such function). -/

/-- An embedding vector. -/
abbrev Vec := List ℚ

/-- Squared L2 distance, the metric of `faiss.IndexFlatL2`. -/
def l2sq (u v : Vec) : ℚ := ((u.zip v).map (fun q => (q.1 - q.2) ^ 2)).sum

/-- The dict built by `FAISSManager._get_chunk_info`. -/
structure ChunkInfo where
  chunk_id : String
  article_id : String
  content : String
  chunk_index : Nat
  article_title : String
  source : String
  published_at : String
  url : String
deriving DecidableEq

/-- The manager's mutable state: the FAISS index contents and the parallel
`chunk_metadata` list. -/
structure FaissState where
  vectors : List Vec
  chunk_metadata : List ChunkInfo
deriving DecidableEq

/-- A freshly-constructed manager with no persisted index. -/
def FaissState.empty : FaissState := ⟨[], []⟩

/-- `EmbeddingGenerator.get_all_embeddings`: all rows of the embeddings
table ordered by `chunk_id`, returned as parallel (embeddings, chunk_ids)
lists. -/
def get_all_embeddings (table : List (String × Vec)) : List Vec × List String :=
  let rows := table.insertionSort (fun a b => a.1 ≤ b.1)
  (rows.map Prod.snd, rows.map Prod.fst)

/-- `FAISSManager.build_index_from_database`: on an empty table the state is
left untouched and 0 is returned; otherwise the index and metadata are
reset and rebuilt from the parallel lists. -/
def build_index_from_database (db : String → ChunkInfo)
    (table : List (String × Vec)) (s : FaissState) : FaissState × Nat :=
  let pair := get_all_embeddings table
  if pair.1.length = 0 then (s, 0)
  else
    let s1 : FaissState := { vectors := pair.1, chunk_metadata := pair.2.map db }
    (s1, s1.vectors.length)

/-- `FAISSManager.add_new_embeddings`: raises `ValueError` (before touching
the index) when the id and embedding counts differ, otherwise appends to
both parallel structures. -/
def add_new_embeddings (db : String → ChunkInfo) (s : FaissState)
    (chunk_ids : List String) (embeddings : List Vec) :
    Except String FaissState :=
  if chunk_ids.length ≠ embeddings.length then
    .error "Number of chunk_ids must match number of embeddings"
  else
    .ok { vectors := s.vectors ++ embeddings
          chunk_metadata := s.chunk_metadata ++ chunk_ids.map db }

/-- One entry of the list returned by `search_similar`. -/
structure SearchResult where
  rank : Nat
  similarity_score : ℚ
  distance : ℚ
  meta : Option ChunkInfo
deriving DecidableEq

/-- The Python truthiness guard
`if score_threshold and similarity_score < score_threshold`: a `None` or
`0.0` threshold is falsy, so it disables filtering. -/
def thresholdSkip (th : Option ℚ) (sim : ℚ) : Bool :=
  match th with
  | none => false
  | some t => decide (t ≠ 0) && decide (sim < t)

/-- `self.index.search(query, k)` for `IndexFlatL2`: exact search returning
the `k` nearest rows as (squared distance, row index) pairs in ascending
distance order.  Modelled from the FAISS library's documented semantics. -/
def distLe (a b : ℚ × Nat) : Prop := a.1 ≤ b.1

instance : DecidableRel distLe := fun a b =>
  inferInstanceAs (Decidable (a.1 ≤ b.1))

instance : IsTotal (ℚ × Nat) distLe := ⟨fun a b => le_total a.1 b.1⟩

instance : IsTrans (ℚ × Nat) distLe := ⟨fun _ _ _ => le_trans⟩

def faissSearch (s : FaissState) (q : Vec) (k : Nat) : List (ℚ × Nat) :=
  ((s.vectors.enum.map (fun iv => (l2sq q iv.2, iv.1))).insertionSort
    distLe).take k

/-- The result-assembly loop of `search_similar`: `i` is the enumeration
index over the raw candidate list (so `rank = i + 1` numbers candidates),
and candidates below an active threshold are skipped. -/
def searchLoop (md : List ChunkInfo) (th : Option ℚ) :
    Nat → List (ℚ × Nat) → List SearchResult
  | _, [] => []
  | i, (d, idx) :: rest =>
    if thresholdSkip th (1 / (1 + d)) then searchLoop md th (i + 1) rest
    else { rank := i + 1, similarity_score := 1 / (1 + d), distance := d,
           meta := md.get? idx } :: searchLoop md th (i + 1) rest

/-- `FAISSManager.search_similar`. -/
def search_similar (s : FaissState) (q : Vec) (k : Nat) (th : Option ℚ) :
    List SearchResult :=
  if s.vectors.length = 0 then []
  else searchLoop s.chunk_metadata th 0 (faissSearch s q (min k s.vectors.length))

/-- States reachable through the index-mutating operations of the manager
(`search_similar`, `save_index` and `get_index_stats` do not modify the
index or the metadata). -/
inductive Reachable (db : String → ChunkInfo) : FaissState → Prop
  | init : Reachable db FaissState.empty
  | build (s : FaissState) (table : List (String × Vec)) :
      Reachable db s → Reachable db (build_index_from_database db table s).1
  | add (s : FaissState) (ids : List String) (embs : List Vec)
      (s1 : FaissState) : Reachable db s →
      add_new_embeddings db s ids embs = .ok s1 → Reachable db s1

/-- Claim C4: every state reachable through `build_index_from_database` and
`add_new_embeddings` satisfies `index.count == len(metadata_list)`; a
mismatched `add` raises before touching either structure, so the invariant
is preserved by every operation. -/
theorem C4_count_metadata_invariant (db : String → ChunkInfo)
    (s : FaissState) (h : Reachable db s) :
    s.vectors.length = s.chunk_metadata.length := by
  induction h with
  | init => rfl
  | build s table _ ih =>
    unfold build_index_from_database
    dsimp only
    split
    · exact ih
    · simp [get_all_embeddings]
  | add s ids embs s1 _ hok ih =>
    unfold add_new_embeddings at hok
    split at hok
    · cases hok
    · injection hok with hok
      subst hok
      simp only [List.length_append, List.length_map]
      omega

/-- Witness for C4 at the initial state of a concrete manager. -/
theorem C4_count_metadata_invariant_witness :
    FaissState.empty.vectors.length = FaissState.empty.chunk_metadata.length :=
  C4_count_metadata_invariant (fun _ => ⟨"", "", "", 0, "", "", "", ""⟩)
    FaissState.empty Reachable.init

/-! ### Search ordering (C5, C10) -/

theorem l2sq_nonneg (u v : Vec) : 0 ≤ l2sq u v :=
  List.sum_nonneg fun x hx => by
    obtain ⟨q, -, rfl⟩ := List.mem_map.mp hx
    positivity

theorem faissSearch_sorted (s : FaissState) (q : Vec) (k : Nat) :
    List.Sorted distLe (faissSearch s q k) :=
  List.Pairwise.sublist (List.take_sublist _ _)
    (List.sorted_insertionSort distLe _)

theorem faissSearch_nonneg (s : FaissState) (q : Vec) (k : Nat) :
    ∀ c ∈ faissSearch s q k, 0 ≤ c.1 := by
  intro c hc
  have hmem : c ∈ (s.vectors.enum.map
      (fun iv => (l2sq q iv.2, iv.1))).insertionSort distLe :=
    (List.take_sublist _ _).subset hc
  rw [List.mem_insertionSort] at hmem
  obtain ⟨iv, -, rfl⟩ := List.mem_map.mp hmem
  exact l2sq_nonneg q iv.2

theorem searchLoop_all_skip (md : List ChunkInfo) (th : Option ℚ) :
    ∀ (i : Nat) (cands : List (ℚ × Nat)),
    (∀ c ∈ cands, thresholdSkip th (1 / (1 + c.1)) = true) →
    searchLoop md th i cands = []
  | _, [], _ => rfl
  | i, (d, idx) :: rest, h => by
    rw [searchLoop, if_pos (h (d, idx) (List.mem_cons_self _ _))]
    exact searchLoop_all_skip md th (i + 1) rest
      (fun c hc => h c (List.mem_cons_of_mem _ hc))

theorem searchLoop_spec (md : List ChunkInfo) (th : Option ℚ) :
    ∀ (cands : List (ℚ × Nat)) (i : Nat),
    List.Sorted distLe cands → (∀ c ∈ cands, 0 ≤ c.1) →
    ((searchLoop md th i cands).map (fun r => r.rank) =
      List.range' (i + 1) (searchLoop md th i cands).length) ∧
    List.Sorted (fun a b : SearchResult =>
      b.similarity_score ≤ a.similarity_score) (searchLoop md th i cands) ∧
    (∀ r ∈ searchLoop md th i cands,
      ∃ c ∈ cands, r.similarity_score = 1 / (1 + c.1)) := by
  intro cands
  induction cands with
  | nil => intro i _ _; exact ⟨rfl, List.sorted_nil, by simp [searchLoop]⟩
  | cons c rest ih =>
    intro i hsort hnn
    obtain ⟨d, idx⟩ := c
    have hrel : ∀ b ∈ rest, d ≤ b.1 := (List.sorted_cons.mp hsort).1
    have hrest : List.Sorted distLe rest := (List.sorted_cons.mp hsort).2
    have hd0 : 0 ≤ d := hnn _ (List.mem_cons_self _ _)
    have hmono : ∀ b ∈ rest, 1 / (1 + b.1) ≤ 1 / (1 + d) := by
      intro b hb
      apply one_div_le_one_div_of_le
      · linarith
      · have := hrel b hb; linarith
    by_cases hskip : thresholdSkip th (1 / (1 + d)) = true
    · rw [searchLoop, if_pos hskip]
      have hall : ∀ c ∈ rest, thresholdSkip th (1 / (1 + c.1)) = true := by
        intro c hc
        match th with
        | none => simp [thresholdSkip] at hskip
        | some t =>
          simp only [thresholdSkip, Bool.and_eq_true, decide_eq_true_eq]
            at hskip ⊢
          exact ⟨hskip.1, lt_of_le_of_lt (hmono c hc) hskip.2⟩
      rw [searchLoop_all_skip md th (i + 1) rest hall]
      exact ⟨rfl, List.sorted_nil, by simp⟩
    · rw [searchLoop, if_neg hskip]
      obtain ⟨ih1, ih2, ih3⟩ := ih (i + 1) hrest
        (fun c hc => hnn c (List.mem_cons_of_mem _ hc))
      refine ⟨?_, ?_, ?_⟩
      · simp only [List.map_cons, List.length_cons, ih1, List.range'_succ]
      · rw [List.sorted_cons]
        refine ⟨fun b hb => ?_, ih2⟩
        obtain ⟨c, hc, hcs⟩ := ih3 b hb
        rw [hcs]
        exact hmono c hc
      · intro r hr
        rcases List.mem_cons.mp hr with rfl | hr
        · exact ⟨(d, idx), List.mem_cons_self _ _, rfl⟩
        · obtain ⟨c, hc, hcs⟩ := ih3 r hr
          exact ⟨c, List.mem_cons_of_mem _ hc, hcs⟩

/-- Claim C5: search results are ordered by `similarity_score` descending,
and the `rank` fields of the returned list are exactly `1, 2, …, n` in
order (no gaps): an active `score_threshold` only ever removes a suffix of
the distance-sorted candidates, because similarity is antitone in
distance. -/
theorem C5_sorted_and_ranks_consecutive (s : FaissState) (q : Vec)
    (k : Nat) (th : Option ℚ) :
    List.Sorted (fun a b : SearchResult =>
      b.similarity_score ≤ a.similarity_score) (search_similar s q k th) ∧
    (search_similar s q k th).map (fun r => r.rank) =
      List.range' 1 (search_similar s q k th).length := by
  unfold search_similar
  split
  · exact ⟨List.sorted_nil, rfl⟩
  · obtain ⟨h1, h2, -⟩ := searchLoop_spec s.chunk_metadata th
      (faissSearch s q (min k s.vectors.length)) 0
      (faissSearch_sorted s q _) (faissSearch_nonneg s q _)
    exact ⟨h2, h1⟩

theorem searchLoop_zero_thr (md : List ChunkInfo) :
    ∀ (i : Nat) (cands : List (ℚ × Nat)),
    searchLoop md (some 0) i cands = searchLoop md none i cands
  | _, [] => rfl
  | i, (d, idx) :: rest => by
    rw [searchLoop, searchLoop, searchLoop_zero_thr md (i + 1) rest]
    simp [thresholdSkip]

/-- Claim C10: a `score_threshold` of `0.0` is falsy in the guard
`if score_threshold and similarity_score < score_threshold`, so it
disables filtering entirely: searching with threshold `0.0` returns
exactly the results of searching with no threshold. -/
theorem C10_zero_threshold_is_no_threshold (s : FaissState) (q : Vec)
    (k : Nat) :
    search_similar s q k (some 0) = search_similar s q k none := by
  unfold search_similar
  split
  · rfl
  · exact searchLoop_zero_thr s.chunk_metadata 0 _

/-! ### `DocumentRetriever` (`vector_db/retriever.py`)

The query-embedding model of `search_by_text` is a parameter
`embed : String → Vec`.  Python's `set` of source strings is modelled as an
insertion-ordered duplicate-free list. -/

/-- `result.get(key, default)` over the optional merged metadata. -/
def mgetD (dflt : String) (f : ChunkInfo → String) (m : Option ChunkInfo) :
    String :=
  (m.map f).getD dflt

/-- One entry of `retrieved_documents`; the three fields added only when
`include_sources` is true are `Option`-valued. -/
structure DocInfo where
  rank : Nat
  content : String
  similarity_score : ℚ
  chunk_id : String
  article_title : String
  source : String
  article_id : Option String
  published_at : Option String
  url : Option String
deriving DecidableEq

/-- The `search_metadata` sub-dict (absent on the no-result path). -/
structure SearchMeta where
  top_k_requested : Nat
  score_threshold : Option ℚ
  avg_similarity : ℚ
deriving DecidableEq

/-- The dict returned by `retrieve_relevant_documents`. -/
structure RetrievalOutput where
  query : String
  retrieved_documents : List DocInfo
  sources : List String
  context_text : String
  total_results : Nat
  search_metadata : Option SearchMeta
deriving DecidableEq

/-- The per-result `doc_info` dict built in the retrieval loop. -/
def docInfoOf (inc : Bool) (r : SearchResult) : DocInfo :=
  { rank := r.rank
    content := mgetD "" ChunkInfo.content r.meta
    similarity_score := r.similarity_score
    chunk_id := mgetD "" ChunkInfo.chunk_id r.meta
    article_title := mgetD "Unknown" ChunkInfo.article_title r.meta
    source := mgetD "Unknown" ChunkInfo.source r.meta
    article_id := if inc then some (mgetD "" ChunkInfo.article_id r.meta) else none
    published_at := if inc then some (mgetD "" ChunkInfo.published_at r.meta) else none
    url := if inc then some (mgetD "" ChunkInfo.url r.meta) else none }

/-- `set.add` modelled as ordered insertion without duplicates. -/
def addOnce (acc : List String) (s : String) : List String :=
  if s ∈ acc then acc else acc ++ [s]

/-- The `"{source} - {title}"` string added to `sources`. -/
def sourceLabel (r : SearchResult) : String :=
  mgetD "Unknown" ChunkInfo.source r.meta ++ " - " ++
    mgetD "Unknown" ChunkInfo.article_title r.meta

/-- `DocumentRetriever.retrieve_relevant_documents`. -/
def retrieve_relevant_documents (fs : FaissState) (embed : String → Vec)
    (query : String) (top_k : Nat) (score_threshold : Option ℚ)
    (include_sources : Bool) : RetrievalOutput :=
  let search_results := search_similar fs (embed query) top_k score_threshold
  if search_results = [] then
    { query := query, retrieved_documents := [], sources := []
      context_text := "", total_results := 0, search_metadata := none }
  else
    let docs := search_results.map (docInfoOf include_sources)
    let srcs :=
      if include_sources then
        search_results.foldl (fun acc r => addOnce acc (sourceLabel r)) []
      else []
    let parts := search_results.enum.map (fun ir =>
      "[Document " ++ toString (ir.1 + 1) ++ "]: " ++
        mgetD "" ChunkInfo.content ir.2.meta)
    { query := query
      retrieved_documents := docs
      sources := srcs
      context_text := String.intercalate (String.mk ['\n', '\n']) parts
      total_results := docs.length
      search_metadata := some
        { top_k_requested := top_k
          score_threshold := score_threshold
          avg_similarity :=
            (docs.map (fun d => d.similarity_score)).sum / (docs.length : ℚ) } }

/-- Python `str.lower()` on one character (ASCII fragment). -/
def lowerChar (c : Char) : Char :=
  if 'A' ≤ c ∧ c ≤ 'Z' then Char.ofNat (c.toNat + 32) else c

/-- Python `str.lower()` (ASCII fragment). -/
def lowerL (s : List Char) : List Char := s.map lowerChar

/-- `p` is a prefix of `s` (helper for the substring test). -/
def startsWithL : List Char → List Char → Bool
  | [], _ => true
  | _ :: _, [] => false
  | p :: ps, c :: cs => p = c && startsWithL ps cs

/-- Python's `pat in s` contiguous-substring test. -/
def hasSub (pat : List Char) : List Char → Bool
  | [] => pat.isEmpty
  | c :: rest => startsWithL pat (c :: rest) || hasSub pat rest

/-- The two `continue` guards of the filter loop: Python string truthiness
makes an empty filter string inactive; the source filter is
case-insensitive, the date filter is a plain substring test. -/
def passFilters (sf df : Option String) (r : SearchResult) : Bool :=
  (match sf with
   | none => true
   | some f =>
     if f = "" then true
     else hasSub (lowerL f.toList)
       (lowerL (mgetD "" ChunkInfo.source r.meta).toList)) &&
  (match df with
   | none => true
   | some f =>
     if f = "" then true
     else hasSub (f.toList) ((mgetD "" ChunkInfo.published_at r.meta).toList))

/-- The accumulation loop of `retrieve_by_filters`, with its
`if len(filtered_results) >= top_k: break` early exit. -/
def filterLoop (sf df : Option String) (top_k : Nat)
    (acc : List SearchResult) : List SearchResult → List SearchResult
  | [] => acc
  | r :: rest =>
    if passFilters sf df r then
      let acc1 := acc ++ [r]
      if acc1.length ≥ top_k then acc1
      else filterLoop sf df top_k acc1 rest
    else filterLoop sf df top_k acc rest

/-- `DocumentRetriever.retrieve_by_filters`: over-fetch `2×top_k` with no
threshold, filter, then return a fresh standard retrieval whose `top_k` is
the number of surviving candidates (defaults `score_threshold = 0.3`,
`include_sources = True`). -/
def retrieve_by_filters (fs : FaissState) (embed : String → Vec)
    (query : String) (sf df : Option String) (top_k : Nat) :
    RetrievalOutput :=
  let all_results := search_similar fs (embed query) (top_k * 2) none
  let filtered := filterLoop sf df top_k [] all_results
  retrieve_relevant_documents fs embed query filtered.length
    (some (3 / 10)) true

/-! ### `NewsRAGGenerator` (`llm_integration/rag_generator.py`)

The OpenAI call is external I/O: its outcome for a given prompt is a
parameter (`LLMResult.ok` for a successful completion, `LLMResult.exn` for
a raised exception), and `hasKey` is whether an API key is configured. -/

inductive LLMResult where
  | ok (text : String)
  | exn (msg : String)
deriving DecidableEq

/-- `NewsRAGGenerator._fallback_response` (extractive template). -/
def fallback_response (query : String) (rr : RetrievalOutput) : String :=
  match rr.retrieved_documents with
  | [] => "I found no relevant articles to answer: " ++ query
  | d0 :: _ =>
    let docs := rr.retrieved_documents
    let top_content := String.mk (d0.content.toList.take 300) ++ "..."
    let bullets := (docs.take 3).foldl (fun acc d =>
      acc ++ "- " ++ String.mk (d.article_title.toList.take 60) ++
        "... (Source: " ++ d.source ++ ")" ++ String.mk ['\n']) ""
    "**Summary:** Based on the retrieved news articles, here is what I found regarding " ++
      query ++ ":" ++ String.mk ['\n', '\n'] ++ top_content ++
      String.mk ['\n', '\n'] ++ "**Key Points:**" ++ String.mk ['\n'] ++
      bullets ++ String.mk ['\n'] ++ "**Sources:** " ++
      toString docs.length ++ " relevant articles found from " ++
      String.intercalate ", " (docs.foldl (fun acc d => addOnce acc d.source) [])

/-- The response dataclass. -/
structure RAGResponse where
  answer : String
  sources : List String
  retrieved_documents : List DocInfo
  confidence_score : ℚ
  query : String
deriving DecidableEq

/-- `NewsRAGGenerator.generate_response`.  The only statement in the `try`
block that can raise is the OpenAI call (taken only when a key is
configured); an exception routes to the fallback answer with fixed
confidence `0.5`. -/
def generate_response (fs : FaissState) (embed : String → Vec)
    (llm : LLMResult) (hasKey : Bool) (query : String) (top_k : Nat)
    (score_threshold : Option ℚ) : RAGResponse :=
  let rr := retrieve_relevant_documents fs embed query top_k score_threshold true
  if rr.retrieved_documents = [] then
    { answer := "I could not find any relevant news articles to answer your question. Please try rephrasing your query or asking about a different topic."
      sources := []
      retrieved_documents := []
      confidence_score := 0
      query := query }
  else
    match (if hasKey then llm else .ok (fallback_response query rr)) with
    | .ok text =>
      { answer := text
        sources := rr.sources
        retrieved_documents := rr.retrieved_documents
        confidence_score :=
          min ((rr.search_metadata.map SearchMeta.avg_similarity).getD 0 * 2) 1
        query := query }
    | .exn _ =>
      { answer := fallback_response query rr
        sources := rr.sources
        retrieved_documents := rr.retrieved_documents
        confidence_score := 1 / 2
        query := query }

/-- `NewsRAGGenerator.batch_summarize_topics`: per-topic, an exception
escaping `generate_response` (parameter `excOf`) is caught and converted
into an error response with confidence `0.0`; the generator itself is
called with its defaults `top_k = 3`, `score_threshold = 0.2`. -/
def batch_summarize_topics (fs : FaissState) (embed : String → Vec)
    (llmOf : String → LLMResult) (excOf : String → Option String)
    (hasKey : Bool) (topics : List String) : List (String × RAGResponse) :=
  topics.map (fun topic =>
    (topic,
      match excOf topic with
      | some e =>
        { answer := "Error processing topic: " ++ e
          sources := []
          retrieved_documents := []
          confidence_score := 0
          query := topic }
      | none => generate_response fs embed (llmOf topic) hasKey topic 3
          (some (1 / 5))))

/-! ### Claim C6 -/

/-- Metadata row whose source is CNN. -/
def cnnInfo : ChunkInfo :=
  ⟨"c1", "a1", "cnn text", 0, "T1", "CNN", "2024-01-01", "u1"⟩

/-- Metadata row whose source is BBC News. -/
def bbcInfo : ChunkInfo :=
  ⟨"c2", "a2", "bbc text", 0, "T2", "BBC News", "2024-01-02", "u2"⟩

/-- A two-vector index: the CNN chunk at distance 0 from the test query,
the BBC chunk at distance 1. -/
def fsNews : FaissState := ⟨[[0, 0], [1, 0]], [cnnInfo, bbcInfo]⟩

/-- Claim C6: filtering is not applied to the returned documents.  With
`source_filter = "BBC"` and `top_k = 1`, the only filtered candidate is the
BBC chunk, but `retrieve_by_filters` then re-runs the standard retrieval
with `top_k = 1` and returns the CNN document — whose source does not
contain `"bbc"` — because the filtered list is discarded except for its
length. -/
theorem C6_source_filter_not_enforced :
    ((retrieve_by_filters fsNews (fun _ => [0, 0]) "q" (some "BBC") none
        1).retrieved_documents.map (fun d => d.source)) = ["CNN"] ∧
    (retrieve_by_filters fsNews (fun _ => [0, 0]) "q" (some "BBC") none
        1).total_results = 1 ∧
    hasSub (lowerL "BBC".toList) (lowerL "CNN".toList) = false := by
  refine ⟨by decide, by decide, by decide⟩

/-! ### `_store_embeddings_batch` (`embeddings/embedding_generator.py`) -/

/-- A row of the `embeddings` table. -/
structure EmbRow where
  chunk_id : String
  embedding : Vec
  embedding_dim : Nat
  model_name : String
deriving DecidableEq

/-- `INSERT OR REPLACE` keyed by the `chunk_id` primary key. -/
def upsertRow (table : List EmbRow) (r : EmbRow) : List EmbRow :=
  if table.any (fun x => x.chunk_id = r.chunk_id) then
    table.map (fun x => if x.chunk_id = r.chunk_id then r else x)
  else table ++ [r]

/-- `EmbeddingGenerator._store_embeddings_batch`: zips ids with vectors,
serializes each vector, and upserts
`(chunk_id, embedding, self.embedding_dim, self.model_name)` rows.  There
is no validation of the vector length against the configured dimension. -/
def store_embeddings_batch (dim : Nat) (model_name : String)
    (table : List EmbRow) (chunk_ids : List String)
    (embeddings : List Vec) : List EmbRow :=
  ((chunk_ids.zip embeddings).map (fun ce =>
    EmbRow.mk ce.1 ce.2 dim model_name)).foldl upsertRow table

theorem mem_upsertRow (table : List EmbRow) (row r : EmbRow)
    (h : r ∈ upsertRow table row) : r ∈ table ∨ r = row := by
  unfold upsertRow at h
  split at h
  · obtain ⟨x, hx, hxr⟩ := List.mem_map.mp h
    by_cases hc : x.chunk_id = row.chunk_id
    · right; rw [if_pos hc] at hxr; exact hxr.symm
    · left; rw [if_neg hc] at hxr; exact hxr ▸ hx
  · rcases List.mem_append.mp h with h | h
    · exact Or.inl h
    · exact Or.inr (List.mem_singleton.mp h)

theorem mem_foldl_upsertRow :
    ∀ (rows : List EmbRow) (table : List EmbRow) (r : EmbRow),
    r ∈ rows.foldl upsertRow table → r ∈ table ∨ r ∈ rows
  | [], _, _, h => Or.inl h
  | row :: rest, table, r, h => by
    rcases mem_foldl_upsertRow rest (upsertRow table row) r h with h1 | h1
    · rcases mem_upsertRow table row r h1 with h2 | h2
      · exact Or.inl h2
      · exact Or.inr (h2 ▸ List.mem_cons_self _ _)
    · exact Or.inr (List.mem_cons_of_mem _ h1)

/-- Claim C7 (counterexample): a vector of length 3 upserted into a store
configured with dimension 384 is persisted without any error, and the row
even records `embedding_dim = 384` for it. -/
theorem C7_wrong_length_vector_stored :
    store_embeddings_batch 384 "all-MiniLM-L6-v2" [] ["c1"] [[1, 2, 3]] =
      [⟨"c1", [1, 2, 3], 384, "all-MiniLM-L6-v2"⟩] ∧
    ([1, 2, 3] : Vec).length ≠ 384 := by
  refine ⟨by decide, by decide⟩

/-- Claim C7 (amended): `_store_embeddings_batch` performs no dimension
validation at all: every batch upsert succeeds, each row of the result is
either a pre-existing row or one of the zipped `(chunk_id, vector)` pairs,
and each inserted row records the store's configured dimension as
`embedding_dim` regardless of the vector's actual length. -/
theorem C7_no_dimension_validation (dim : Nat) (mn : String)
    (table : List EmbRow) (ids : List String) (embs : List Vec) :
    ∀ r ∈ store_embeddings_batch dim mn table ids embs,
      r ∈ table ∨ (r.embedding_dim = dim ∧ r.model_name = mn ∧
        (r.chunk_id, r.embedding) ∈ ids.zip embs) := by
  intro r hr
  rcases mem_foldl_upsertRow _ table r hr with h | h
  · exact Or.inl h
  · obtain ⟨ce, hce, rfl⟩ := List.mem_map.mp h
    exact Or.inr ⟨rfl, rfl, hce⟩

/-- Witness for C7 (amended): the wrong-length row of the counterexample
is accounted for as an inserted row with the store's dimension. -/
theorem C7_no_dimension_validation_witness :
    (⟨"c1", [1, 2, 3], 384, "m"⟩ : EmbRow) ∈ ([] : List EmbRow) ∨
    ((⟨"c1", [1, 2, 3], 384, "m"⟩ : EmbRow).embedding_dim = 384 ∧
      (⟨"c1", [1, 2, 3], 384, "m"⟩ : EmbRow).model_name = "m" ∧
      ((⟨"c1", [1, 2, 3], 384, "m"⟩ : EmbRow).chunk_id,
        (⟨"c1", [1, 2, 3], 384, "m"⟩ : EmbRow).embedding) ∈
        ["c1"].zip [([1, 2, 3] : Vec)]) :=
  C7_no_dimension_validation 384 "m" [] ["c1"] [[1, 2, 3]] _ (by decide)

/-! ### Confidence bounds (C8) -/

theorem search_similar_sim_bounds (fs : FaissState) (q : Vec) (k : Nat)
    (th : Option ℚ) :
    ∀ r ∈ search_similar fs q k th,
      0 ≤ r.similarity_score ∧ r.similarity_score ≤ 1 := by
  intro r hr
  unfold search_similar at hr
  split at hr
  · simp at hr
  · obtain ⟨-, -, h3⟩ := searchLoop_spec fs.chunk_metadata th
      (faissSearch fs q (min k fs.vectors.length)) 0
      (faissSearch_sorted fs q _) (faissSearch_nonneg fs q _)
    obtain ⟨c, hc, hcs⟩ := h3 r hr
    have hd := faissSearch_nonneg fs q _ c hc
    rw [hcs]
    constructor
    · exact le_of_lt (div_pos one_pos (by linarith))
    · rw [div_le_one (by linarith)]; linarith

theorem retrieval_avg_nonneg (fs : FaissState) (embed : String → Vec)
    (query : String) (k : Nat) (th : Option ℚ) (inc : Bool) (m : SearchMeta)
    (hm : (retrieve_relevant_documents fs embed query k th inc).search_metadata
      = some m) : 0 ≤ m.avg_similarity := by
  unfold retrieve_relevant_documents at hm
  dsimp only at hm
  split at hm
  · simp at hm
  · obtain rfl := (Option.some.injEq _ _).mp hm
    apply div_nonneg _ (Nat.cast_nonneg _)
    apply List.sum_nonneg
    intro x hx
    rw [List.map_map, List.mem_map] at hx
    obtain ⟨r, hr, rfl⟩ := hx
    exact (search_similar_sim_bounds fs (embed query) k th r hr).1

theorem generate_conf_bounds (fs : FaissState) (embed : String → Vec)
    (llm : LLMResult) (hasKey : Bool) (query : String) (top_k : Nat)
    (th : Option ℚ) :
    0 ≤ (generate_response fs embed llm hasKey query top_k th).confidence_score ∧
    (generate_response fs embed llm hasKey query top_k th).confidence_score ≤ 1 := by
  unfold generate_response
  dsimp only
  split
  · exact ⟨le_rfl, by norm_num⟩
  · split
    · have havg : 0 ≤ ((retrieve_relevant_documents fs embed query top_k th
          true).search_metadata.map SearchMeta.avg_similarity).getD 0 := by
        match hm : (retrieve_relevant_documents fs embed query top_k th
            true).search_metadata with
        | none => simp
        | some m =>
          simpa using retrieval_avg_nonneg fs embed query top_k th true m hm
      constructor
      · exact le_min (by linarith) (by norm_num)
      · exact min_le_right _ _
    · norm_num

/-- Claim C8: the confidence score lies in `[0, 1]` on every synthesis
path; on generation success it is `min(avg_similarity × 2, 1)`, on a
generation-backend exception it is `0.5`, on no results it is `0`, and a
per-topic batch error yields `0` — and every batch entry is in `[0, 1]`. -/
theorem C8_confidence_bounds (fs : FaissState) (embed : String → Vec)
    (llm : LLMResult) (hasKey : Bool) (query : String) (top_k : Nat)
    (th : Option ℚ) (llmOf : String → LLMResult)
    (excOf : String → Option String) (topics : List String) :
    (0 ≤ (generate_response fs embed llm hasKey query top_k th).confidence_score ∧
      (generate_response fs embed llm hasKey query top_k th).confidence_score ≤ 1) ∧
    ((retrieve_relevant_documents fs embed query top_k th true).retrieved_documents
        = [] →
      (generate_response fs embed llm hasKey query top_k th).confidence_score = 0) ∧
    (∀ t, hasKey = true → llm = LLMResult.ok t →
      (retrieve_relevant_documents fs embed query top_k th true).retrieved_documents
        ≠ [] →
      (generate_response fs embed llm hasKey query top_k th).confidence_score =
        min (((retrieve_relevant_documents fs embed query top_k th
          true).search_metadata.map SearchMeta.avg_similarity).getD 0 * 2) 1) ∧
    (∀ e, hasKey = true → llm = LLMResult.exn e →
      (retrieve_relevant_documents fs embed query top_k th true).retrieved_documents
        ≠ [] →
      (generate_response fs embed llm hasKey query top_k th).confidence_score
        = 1 / 2) ∧
    (∀ pr ∈ batch_summarize_topics fs embed llmOf excOf hasKey topics,
      (0 ≤ pr.2.confidence_score ∧ pr.2.confidence_score ≤ 1) ∧
      ((excOf pr.1).isSome → pr.2.confidence_score = 0)) := by
  refine ⟨generate_conf_bounds fs embed llm hasKey query top_k th,
    ?_, ?_, ?_, ?_⟩
  · intro hempty
    unfold generate_response
    dsimp only
    rw [if_pos hempty]
  · intro t hk hok hne
    unfold generate_response
    dsimp only
    rw [if_neg hne, hk, hok]
    rfl
  · intro e hk hexn hne
    unfold generate_response
    dsimp only
    rw [if_neg hne, hk, hexn]
    rfl
  · intro pr hpr
    unfold batch_summarize_topics at hpr
    obtain ⟨topic, -, rfl⟩ := List.mem_map.mp hpr
    match hexc : excOf topic with
    | some e => exact ⟨⟨le_rfl, by norm_num⟩, fun _ => rfl⟩
    | none =>
      refine ⟨?_, fun hs => ?_⟩
      · exact generate_conf_bounds fs embed (llmOf topic) hasKey
          topic 3 (some (1 / 5))
      · simp at hs

/-- Witness for C8 on the no-results path of an empty index. -/
theorem C8_confidence_bounds_witness :
    (generate_response FaissState.empty (fun _ => []) (LLMResult.ok "x")
      true "q" 3 (some (1 / 5))).confidence_score = 0 :=
  (C8_confidence_bounds FaissState.empty (fun _ => []) (LLMResult.ok "x")
    true "q" 3 (some (1 / 5)) (fun _ => LLMResult.ok "x") (fun _ => none)
    []).2.1 (by decide)

/-! ### `TextCleaner` (`text_processing/text_cleaner.py`)

Each `re.sub` of `clean_text` is translated into a left-to-right scanner
over `List Char`; matchers return the number of characters consumed beyond
the scanner's current head.  The scanners carry a fuel argument bounded by
the remaining length (never exhausted on the wrapper's call), keeping every
definition structurally recursive.  `html.unescape` is modelled with its
algorithm (longest named-entity prefix with optional semicolon, numeric
character references) over the standard XML/common entity fragment of the
HTML5 table; Python's Windows-1252 remapping of the references 0x80–0x9F is
not modelled.  Unicode NFKD is modelled by a table fragment that is the
identity on ASCII, as the real normalization is. -/

/-- Generic `re.sub` scanner: `m c rest` returns how many characters of
`rest` the leftmost match starting at `c` consumes (the match always
includes `c`), `repl` is the constant replacement. -/
def subScanGo (m : Char → List Char → Option Nat) (repl : List Char) :
    Nat → List Char → List Char
  | _, [] => []
  | 0, s => s
  | fuel + 1, c :: rest =>
    match m c rest with
    | some k => repl ++ subScanGo m repl fuel (rest.drop k)
    | none => c :: subScanGo m repl fuel rest

def subScan (m : Char → List Char → Option Nat) (repl : List Char)
    (s : List Char) : List Char :=
  subScanGo m repl s.length s

/-- Index of the first `'>'`. -/
def idxGt : List Char → Option Nat
  | [] => none
  | c :: rest => if c = '>' then some 0 else (idxGt rest).map (· + 1)

/-- Matcher for `html_pattern = re.compile(r'<[^>]+>')`. -/
def tagMatch (c : Char) (rest : List Char) : Option Nat :=
  if c = '<' then
    match idxGt rest with
    | some j => if 1 ≤ j then some (j + 1) else none
    | none => none
  else none

/-- `://` plus at least one non-whitespace character, greedy. -/
def urlTail : List Char → Option Nat
  | ':' :: '/' :: '/' :: r =>
    let n := (r.takeWhile (fun x => !(pyWs x))).length
    if n = 0 then none else some (3 + n)
  | _ => none

/-- Matcher for `url_pattern = re.compile(r'https?://[^\s]+')`. -/
def urlMatch (c : Char) (rest : List Char) : Option Nat :=
  if c = 'h' then
    match rest with
    | 't' :: 't' :: 'p' :: r =>
      match r with
      | 's' :: r2 =>
        match urlTail r2 with
        | some n => some (4 + n)
        | none => (urlTail r).map (3 + ·)
      | _ => (urlTail r).map (3 + ·)
    | _ => none
  else none

/-- A maximal non-whitespace run matches `\S+@\S+` exactly when it has an
`'@'` that is neither its first nor its last character, in which case the
match (greedy on both sides) covers the whole run. -/
def emailRunMatch (run : List Char) : Bool :=
  decide ('@' ∈ (run.drop 1).dropLast)

/-- `email_pattern.sub(' ', ·)`: whole-run replacement scanner. -/
def emailGo : Nat → List Char → List Char
  | _, [] => []
  | 0, s => s
  | fuel + 1, c :: rest =>
    if pyWs c then c :: emailGo fuel rest
    else
      let run := c :: rest.takeWhile (fun x => !(pyWs x))
      let rest2 := rest.dropWhile (fun x => !(pyWs x))
      (if emailRunMatch run then [' '] else run) ++ emailGo fuel rest2

def emailSub (s : List Char) : List Char := emailGo s.length s

/-- Attempted match of
`byline_pattern = re.compile(r'^By\s+[A-Za-z\s]+\s*[-–]\s*', re.MULTILINE)`
at a line start; returns the total number of characters matched. -/
def bylineTry : List Char → Option Nat
  | 'B' :: 'y' :: r =>
    let w := r.takeWhile (fun x => isAlphaC x || pyWs x)
    if 2 ≤ w.length ∧ (w.head?.map pyWs).getD false = true then
      match r.drop w.length with
      | d :: r2 =>
        if d = '-' ∨ d = '–' then
          some (2 + w.length + 1 + (r2.takeWhile pyWs).length)
        else none
      | [] => none
    else none
  | _ => none

/-- The byline scanner tracks whether the current position is a line start
(string start or just after a newline, including a newline swallowed by a
previous match's trailing `\s*`). -/
def bylineGo : Nat → Bool → List Char → List Char
  | _, _, [] => []
  | 0, _, s => s
  | fuel + 1, atStart, c :: rest =>
    if atStart then
      match bylineTry (c :: rest) with
      | some k =>
        bylineGo fuel
          (decide (((c :: rest).take k).getLast? = some '\n'))
          ((c :: rest).drop k)
      | none => c :: bylineGo fuel (decide (c = '\n')) rest
    else c :: bylineGo fuel (decide (c = '\n')) rest

def bylineSub (s : List Char) : List Char := bylineGo s.length true s

/-- `:` two digits, optional whitespace, then `AM|PM|am|pm`. -/
def tsTail : List Char → Option Nat
  | ':' :: d1 :: d2 :: r2 =>
    if isDigitC d1 && isDigitC d2 then
      let w := (r2.takeWhile pyWs).length
      match r2.drop w with
      | a :: m :: _ =>
        if (a = 'A' ∧ m = 'M') ∨ (a = 'P' ∧ m = 'M') ∨
            (a = 'a' ∧ m = 'm') ∨ (a = 'p' ∧ m = 'm') then
          some (3 + w + 2)
        else none
      | _ => none
    else none
  | _ => none

/-- Matcher for
`timestamp_pattern = re.compile(r'\d{1,2}:\d{2}\s*(AM|PM|am|pm)')`. -/
def tsMatch (c : Char) (rest : List Char) : Option Nat :=
  if isDigitC c then
    match rest with
    | d :: r => if isDigitC d then (tsTail r).map (1 + ·) else tsTail rest
    | [] => none
  else none

/-- Four consecutive ASCII digits occur in the list. -/
def hasFourDigits : List Char → Bool
  | a :: b :: c :: d :: rest =>
    (isDigitC a && isDigitC b && isDigitC c && isDigitC d) ||
      hasFourDigits (b :: c :: d :: rest)
  | _ => false

/-- Matcher for
`copyright_pattern = re.compile(r'©.*?\d{4}.*?$', re.MULTILINE)`: from a
`©`, if the rest of the line contains four consecutive digits the match
extends to the end of that line. -/
def copyMatch (c : Char) (rest : List Char) : Option Nat :=
  if c = '©' then
    let line := rest.takeWhile (fun x => !(x = '\n'))
    if hasFourDigits line then some line.length else none
  else none

/-- The character class `[^\t\n\f <&#;]` of entity names. -/
def entNameChar (c : Char) : Bool :=
  !(c = '\t' || c = '\n' || c = '\x0c' || c = ' ' || c = '<' || c = '&' ||
    c = '#' || c = ';')

/-- The XML/common fragment of the HTML5 named-entity table (keys with and
without the trailing semicolon, as in Python's `html5` dict). -/
def entityTable : List (String × String) :=
  [("amp;", "&"), ("amp", "&"), ("lt;", "<"), ("lt", "<"),
   ("gt;", ">"), ("gt", ">"), ("quot;", "\""), ("quot", "\""),
   ("nbsp;", "\xA0"), ("nbsp", "\xA0")]

def entLookup (g : List Char) : Option (List Char) :=
  (entityTable.find? (fun e => e.1.toList = g)).map (fun e => e.2.toList)

/-- The longest-known-prefix fallback of `html._replace_charref`: try
prefixes of the matched group from length `x` down to 2. -/
def entFallbackGo (g : List Char) : Nat → Option (List Char)
  | 0 => none
  | x + 1 =>
    if x + 1 < 2 then none
    else
      match entLookup (g.take (x + 1)) with
      | some v => some (v ++ g.drop (x + 1))
      | none => entFallbackGo g x

def isHexC (c : Char) : Bool :=
  isDigitC c || ('a' ≤ c && c ≤ 'f') || ('A' ≤ c && c ≤ 'F')

def hexVal (c : Char) : Nat :=
  if isDigitC c then c.toNat - 48
  else if 'a' ≤ c && c ≤ 'f' then c.toNat - 87
  else c.toNat - 55

def digitsVal (base : Nat) (ds : List Char) : Nat :=
  ds.foldl (fun acc c => acc * base + hexVal c) 0

/-- `chr(num)` with the invalid-code-point handling of
`html._replace_charref` (`U+FFFD` for 0, surrogates and out-of-range
values; the Windows-1252 compatibility table is not modelled). -/
def numRefChar (n : Nat) : Char :=
  if n = 0 ∨ (55296 ≤ n ∧ n ≤ 57343) ∨ 1114111 < n then '�'
  else Char.ofNat n

/-- Attempted match of the character-reference pattern
`&(#[0-9]+;?|#[xX][0-9a-fA-F]+;?|[^\t\n\f <&#;]{1,32};?)` immediately after
a `&`; returns (characters consumed after the `&`, replacement). -/
def entityMatch (rest : List Char) : Option (Nat × List Char) :=
  match rest with
  | '#' :: r =>
    match r with
    | x :: r2 =>
      if x = 'x' ∨ x = 'X' then
        let ds := r2.takeWhile isHexC
        if ds = [] then none
        else
          let semi := decide ((r2.drop ds.length).head? = some ';')
          some (2 + ds.length + (if semi then 1 else 0),
            [numRefChar (digitsVal 16 ds)])
      else
        let ds := r.takeWhile isDigitC
        if ds = [] then none
        else
          let semi := decide ((r.drop ds.length).head? = some ';')
          some (1 + ds.length + (if semi then 1 else 0),
            [numRefChar (digitsVal 10 ds)])
    | [] => none
  | _ =>
    let t := rest.takeWhile entNameChar
    let g0 := t.take 32
    if g0 = [] then none
    else
      let semi := decide ((rest.drop g0.length).head? = some ';')
      let g := g0 ++ (if semi then [';'] else [])
      let repl :=
        match entLookup g with
        | some v => v
        | none =>
          match entFallbackGo g (g.length - 1) with
          | some v => v
          | none => '&' :: g
      some (g.length, repl)

def unescapeGo : Nat → List Char → List Char
  | _, [] => []
  | 0, s => s
  | fuel + 1, c :: rest =>
    if c = '&' then
      match entityMatch rest with
      | some kr => kr.2 ++ unescapeGo fuel (rest.drop kr.1)
      | none => c :: unescapeGo fuel rest
    else c :: unescapeGo fuel rest

/-- `html.unescape`, including its `if '&' not in s: return s` fast path. -/
def htmlUnescape (s : List Char) : List Char :=
  if '&' ∈ s then unescapeGo s.length s else s

/-- The table fragment of Unicode NFKD decompositions used here; real NFKD
is the identity on every ASCII character, which this table preserves. -/
def nfkdTable : List (Char × List Char) :=
  [('\xA0', [' ']), ('ﬁ', ['f', 'i']), ('①', ['1'])]

/-- `unicodedata.normalize('NFKD', ·)` (table fragment). -/
def nfkd (s : List Char) : List Char :=
  (s.map (fun c =>
    ((nfkdTable.find? (fun e => e.1 = c)).map (fun e => e.2)).getD [c])).flatten

/-- Matcher for `extra_whitespace = re.compile(r'\s+')`. -/
def wsMatch (c : Char) (rest : List Char) : Option Nat :=
  if pyWs c then some ((rest.takeWhile pyWs).length) else none

def collapseWs (s : List Char) : List Char := subScan wsMatch [' '] s

def tagSub (s : List Char) : List Char := subScan tagMatch [' '] s

def urlSub (s : List Char) : List Char := subScan urlMatch [' '] s

def timestampSub (s : List Char) : List Char := subScan tsMatch [] s

def copyrightSub (s : List Char) : List Char := subScan copyMatch [] s

/-- `TextCleaner.clean_text`: unescape entities, drop tags, URLs, emails,
bylines, timestamps and copyright lines, normalize, collapse whitespace,
strip. -/
def clean_text (t : List Char) : List Char :=
  if t = [] ∨ pyStrip t = [] then []
  else
    pyStrip (collapseWs (nfkd (copyrightSub (timestampSub (bylineSub
      (emailSub (urlSub (tagSub (htmlUnescape t)))))))))

/-! ### Cleaner lemmas: no-match stages are the identity -/

theorem subScanGo_id (m : Char → List Char → Option Nat) (repl : List Char) :
    ∀ (fuel : Nat) (s : List Char),
    (∀ c r, (c :: r) <:+ s → m c r = none) → subScanGo m repl fuel s = s
  | _, [], _ => by cases ‹Nat› <;> rfl
  | 0, _ :: _, _ => rfl
  | fuel + 1, c :: rest, h => by
    rw [subScanGo, h c rest (List.suffix_refl _)]
    exact congrArg (c :: ·) (subScanGo_id m repl fuel rest
      (fun c' r' hsuf => h c' r' (hsuf.trans (List.suffix_cons c rest))))

theorem subScan_id (m : Char → List Char → Option Nat) (repl : List Char)
    (s : List Char) (h : ∀ c r, (c :: r) <:+ s → m c r = none) :
    subScan m repl s = s :=
  subScanGo_id m repl s.length s h

theorem tagSub_id (s : List Char) (h : '<' ∉ s) : tagSub s = s := by
  apply subScan_id
  intro c r hsuf
  unfold tagMatch
  rw [if_neg]
  intro hc
  exact h (hc ▸ hsuf.subset (List.mem_cons_self c r))

theorem urlTail_mem (r : List Char) (n : Nat) (h : urlTail r = some n) :
    ':' ∈ r := by
  unfold urlTail at h
  split at h
  · exact List.mem_cons_self _ _
  · cases h

theorem urlMatch_mem (c : Char) (rest : List Char) (n : Nat)
    (h : urlMatch c rest = some n) : ':' ∈ rest := by
  unfold urlMatch at h
  split at h
  case isTrue =>
    split at h
    case h_2 => cases h
    case h_1 r =>
      split at h
      case h_2 hne =>
        obtain ⟨m, hm, -⟩ := Option.map_eq_some'.mp h
        exact List.mem_cons_of_mem _ (List.mem_cons_of_mem _
          (List.mem_cons_of_mem _ (urlTail_mem r m hm)))
      case h_1 r2 =>
        split at h
        case h_1 m hm =>
          exact List.mem_cons_of_mem _ (List.mem_cons_of_mem _
            (List.mem_cons_of_mem _ (List.mem_cons_of_mem _
              (urlTail_mem r2 m hm))))
        case h_2 =>
          obtain ⟨m, hm, -⟩ := Option.map_eq_some'.mp h
          exact List.mem_cons_of_mem _ (List.mem_cons_of_mem _
            (List.mem_cons_of_mem _ (urlTail_mem _ m hm)))
  case isFalse => cases h

theorem urlSub_id (s : List Char) (h : ':' ∉ s) : urlSub s = s := by
  apply subScan_id
  intro c r hsuf
  match hm : urlMatch c r with
  | none => rfl
  | some n =>
    exact absurd (hsuf.subset (List.mem_cons_of_mem _ (urlMatch_mem c r n hm)))
      h

theorem tsTail_mem (r : List Char) (n : Nat) (h : tsTail r = some n) :
    ':' ∈ r := by
  unfold tsTail at h
  split at h
  · exact List.mem_cons_self _ _
  · cases h

theorem tsMatch_mem (c : Char) (rest : List Char) (n : Nat)
    (h : tsMatch c rest = some n) : ':' ∈ rest := by
  unfold tsMatch at h
  split at h
  case isTrue =>
    split at h
    case h_1 d r =>
      split at h
      case isTrue =>
        obtain ⟨m, hm, -⟩ := Option.map_eq_some'.mp h
        exact List.mem_cons_of_mem _ (tsTail_mem r m hm)
      case isFalse => exact tsTail_mem _ n h
    case h_2 => cases h
  case isFalse => cases h

theorem timestampSub_id (s : List Char) (h : ':' ∉ s) : timestampSub s = s := by
  apply subScan_id
  intro c r hsuf
  match hm : tsMatch c r with
  | none => rfl
  | some n =>
    exact absurd (hsuf.subset (List.mem_cons_of_mem _ (tsMatch_mem c r n hm)))
      h

theorem copyrightSub_id (s : List Char) (h : '©' ∉ s) : copyrightSub s = s := by
  apply subScan_id
  intro c r hsuf
  unfold copyMatch
  rw [if_neg]
  intro hc
  exact h (hc ▸ hsuf.subset (List.mem_cons_self c r))

theorem emailRunMatch_false (run : List Char) (h : '@' ∉ run) :
    emailRunMatch run = false := by
  unfold emailRunMatch
  rw [decide_eq_false_iff_not]
  intro hmem
  exact h ((List.drop_subset 1 run) (List.dropLast_subset _ hmem))

theorem emailGo_id : ∀ (fuel : Nat) (s : List Char), '@' ∉ s →
    emailGo fuel s = s
  | _, [], _ => by cases ‹Nat› <;> rfl
  | 0, _ :: _, _ => rfl
  | fuel + 1, c :: rest, h => by
    rw [emailGo]
    by_cases hws : pyWs c
    · rw [if_pos hws]
      exact congrArg (c :: ·) (emailGo_id fuel rest
        (fun hm => h (List.mem_cons_of_mem _ hm)))
    · rw [if_neg hws]
      have hrun : '@' ∉ c :: rest.takeWhile (fun x => !(pyWs x)) := by
        intro hm
        rcases List.mem_cons.mp hm with rfl | hm
        · exact h (List.mem_cons_self _ _)
        · exact h (List.mem_cons_of_mem _ ((List.takeWhile_subset _) hm))
      dsimp only
      rw [emailRunMatch_false _ hrun, if_neg (by simp)]
      have hrec := emailGo_id fuel (rest.dropWhile (fun x => !(pyWs x)))
        (fun hm => h (List.mem_cons_of_mem _ ((List.dropWhile_subset _) hm)))
      rw [hrec]
      simp [List.takeWhile_append_dropWhile]

theorem emailSub_id (s : List Char) (h : '@' ∉ s) : emailSub s = s :=
  emailGo_id s.length s h

theorem bylineTry_mem (s : List Char) (k : Nat) (h : bylineTry s = some k) :
    '-' ∈ s ∨ '–' ∈ s := by
  unfold bylineTry at h
  split at h
  case h_2 => cases h
  case h_1 r =>
    dsimp only at h
    split at h
    case isFalse => cases h
    case isTrue =>
      split at h
      case h_2 => cases h
      case h_1 d r2 heq =>
        split at h
        case isFalse => cases h
        case isTrue hd =>
          have hdr : d ∈ r := by
            refine (List.drop_subset _ _) (?_ :
              d ∈ r.drop ((r.takeWhile (fun x => isAlphaC x || pyWs x)).length))
            rw [heq]
            exact List.mem_cons_self _ _
          rcases hd with rfl | rfl
          · exact Or.inl (List.mem_cons_of_mem _ (List.mem_cons_of_mem _ hdr))
          · exact Or.inr (List.mem_cons_of_mem _ (List.mem_cons_of_mem _ hdr))

theorem bylineGo_id : ∀ (fuel : Nat) (b : Bool) (s : List Char),
    '-' ∉ s → '–' ∉ s → bylineGo fuel b s = s
  | _, _, [], _, _ => by cases ‹Nat› <;> rfl
  | 0, _, _ :: _, _, _ => rfl
  | fuel + 1, b, c :: rest, h1, h2 => by
    rw [bylineGo]
    have hrec := bylineGo_id fuel (decide (c = '\n')) rest
      (fun hm => h1 (List.mem_cons_of_mem _ hm))
      (fun hm => h2 (List.mem_cons_of_mem _ hm))
    by_cases hb : b
    · rw [if_pos hb]
      match ht : bylineTry (c :: rest) with
      | none => exact congrArg (c :: ·) hrec
      | some k =>
        rcases bylineTry_mem _ k ht with hm | hm
        · exact absurd hm h1
        · exact absurd hm h2
    · rw [if_neg hb]
      exact congrArg (c :: ·) hrec

theorem bylineSub_id (s : List Char) (h1 : '-' ∉ s) (h2 : '–' ∉ s) :
    bylineSub s = s :=
  bylineGo_id s.length true s h1 h2

theorem nfkdTable_find_none (c : Char) (hc : c.toNat < 128) :
    nfkdTable.find? (fun e => e.1 = c) = none := by
  rw [List.find?_eq_none]
  intro e he
  simp only [nfkdTable, List.mem_cons, List.not_mem_nil, or_false] at he
  rcases he with rfl | rfl | rfl <;>
    · simp only [decide_eq_true_eq]
      intro heq
      rw [← heq] at hc
      exact absurd hc (by decide)

theorem nfkd_id : ∀ (s : List Char), (∀ c ∈ s, c.toNat < 128) → nfkd s = s
  | [], _ => rfl
  | c :: rest, h => by
    have hr := nfkd_id rest (fun x hx => h x (List.mem_cons_of_mem _ hx))
    unfold nfkd at hr ⊢
    simp only [List.map_cons, List.flatten_cons, hr,
      nfkdTable_find_none c (h c (List.mem_cons_self _ _)), Option.map_none',
      Option.getD_none]
    rfl

theorem htmlUnescape_id (s : List Char) (h : '&' ∉ s) : htmlUnescape s = s :=
  if_neg h

/-! ### Collapsed-whitespace normal form -/

/-- Output normal form of `collapseWs`: every whitespace character is a
single `' '` not followed by further whitespace. -/
def wsNorm : List Char → Bool
  | [] => true
  | [c] => !pyWs c || decide (c = ' ')
  | c :: d :: rest =>
    (if pyWs c then decide (c = ' ') && !pyWs d else true) && wsNorm (d :: rest)

theorem andE {a b : Bool} (h : (a && b) = true) : a = true ∧ b = true :=
  (Bool.and_eq_true a b) ▸ h

theorem wsNorm_tail (c : Char) (rest : List Char)
    (h : wsNorm (c :: rest) = true) : wsNorm rest = true := by
  cases rest with
  | nil => rfl
  | cons d t => exact (andE h).2

theorem drop_takeWhile_len (p : Char → Bool) :
    ∀ l : List Char, l.drop (l.takeWhile p).length = l.dropWhile p
  | [] => rfl
  | c :: t => by
    by_cases hp : p c
    · simp only [List.takeWhile_cons, List.dropWhile_cons, hp, if_pos,
        List.length_cons, List.drop_succ_cons]
      exact drop_takeWhile_len p t
    · simp [List.takeWhile_cons, List.dropWhile_cons, hp]

theorem subScanGo_nil (m : Char → List Char → Option Nat) (repl : List Char)
    (fuel : Nat) : subScanGo m repl fuel [] = [] := by
  cases fuel <;> rfl

theorem collapseGo_cons_not_ws (fuel : Nat) (d : Char) (r2 : List Char)
    (hd : pyWs d = false) :
    ∃ t, subScanGo wsMatch [' '] fuel (d :: r2) = d :: t := by
  cases fuel with
  | zero => exact ⟨r2, rfl⟩
  | succ fuel =>
    rw [subScanGo]
    have hm : wsMatch d r2 = none := by
      unfold wsMatch
      rw [if_neg (by simp [hd])]
    rw [hm]
    exact ⟨_, rfl⟩

theorem collapse_out : ∀ (fuel : Nat) (s : List Char), s.length ≤ fuel →
    wsNorm (subScanGo wsMatch [' '] fuel s) = true
  | 0, s, h => by
    have : s = [] := List.eq_nil_of_length_eq_zero (Nat.le_zero.mp h)
    subst this
    rfl
  | fuel + 1, [], _ => rfl
  | fuel + 1, c :: rest, h => by
    rw [subScanGo]
    by_cases hws : pyWs c
    · have hm : wsMatch c rest = some ((rest.takeWhile pyWs).length) := by
        unfold wsMatch
        rw [if_pos hws]
      rw [hm]
      dsimp only
      rw [drop_takeWhile_len pyWs rest]
      match hd : rest.dropWhile pyWs with
      | [] =>
        rw [subScanGo_nil]
        rfl
      | d :: r2 =>
        have hdws : pyWs d = false := dropWhile_head_false pyWs rest d r2 hd
        obtain ⟨t, ht⟩ := collapseGo_cons_not_ws fuel d r2 hdws
        have hlen : (d :: r2).length ≤ fuel := by
          have h1 : (rest.dropWhile pyWs).length ≤ rest.length :=
            (List.dropWhile_sublist _).length_le
          rw [hd] at h1
          simp only [List.length_cons] at h h1 ⊢
          omega
        have hrec := collapse_out fuel (d :: r2) hlen
        rw [ht] at hrec ⊢
        show wsNorm (' ' :: d :: t) = true
        unfold wsNorm
        rw [if_pos (show pyWs ' ' = true by decide)]
        simp [hrec, hdws]
    · have hm : wsMatch c rest = none := by
        unfold wsMatch
        rw [if_neg hws]
      rw [hm]
      dsimp only
      have hrec := collapse_out fuel rest
        (by simp only [List.length_cons] at h; omega)
      match hr : subScanGo wsMatch [' '] fuel rest with
      | [] =>
        show wsNorm [c] = true
        unfold wsNorm
        simp [hws]
      | e :: t =>
        rw [hr] at hrec
        show wsNorm (c :: e :: t) = true
        unfold wsNorm
        simp only [hrec, Bool.and_true]
        rw [if_neg (by simp [hws])]

theorem collapse_id : ∀ (fuel : Nat) (s : List Char), wsNorm s = true →
    s.length ≤ fuel → subScanGo wsMatch [' '] fuel s = s
  | 0, s, _, h => by
    have : s = [] := List.eq_nil_of_length_eq_zero (Nat.le_zero.mp h)
    subst this
    rfl
  | fuel + 1, [], _, _ => rfl
  | fuel + 1, c :: rest, hn, h => by
    rw [subScanGo]
    have hrec := collapse_id fuel rest (wsNorm_tail c rest hn)
      (by simp only [List.length_cons] at h; omega)
    by_cases hws : pyWs c
    · have hsp : c = ' ' ∧ rest.takeWhile pyWs = [] := by
        cases rest with
        | nil =>
          refine ⟨?_, rfl⟩
          have : (!pyWs c || decide (c = ' ')) = true := hn
          simpa [hws] using this
        | cons d r2 =>
          have h1 := (andE hn).1
          rw [if_pos hws] at h1
          obtain ⟨hc, hd⟩ := andE h1
          refine ⟨of_decide_eq_true hc, ?_⟩
          simp only [List.takeWhile_cons]
          rw [if_neg (by simpa using hd)]
      have hm : wsMatch c rest = some ((rest.takeWhile pyWs).length) := by
        unfold wsMatch
        rw [if_pos hws]
      rw [hm]
      dsimp only
      rw [hsp.2]
      simp only [List.length_nil, List.drop_zero, hrec]
      rw [hsp.1]
      rfl
    · have hm : wsMatch c rest = none := by
        unfold wsMatch
        rw [if_neg hws]
      rw [hm]
      dsimp only
      rw [hrec]

theorem collapseWs_out (s : List Char) : wsNorm (collapseWs s) = true :=
  collapse_out s.length s le_rfl

theorem collapseWs_id (s : List Char) (h : wsNorm s = true) :
    collapseWs s = s :=
  collapse_id s.length s h le_rfl

theorem wsNorm_append_right : ∀ (t a : List Char),
    wsNorm (t ++ a) = true → wsNorm a = true
  | [], _, h => h
  | c :: t, a, h =>
    wsNorm_append_right t a (wsNorm_tail c (t ++ a) h)

theorem wsNorm_append_left : ∀ (l r : List Char),
    wsNorm (l ++ r) = true → wsNorm l = true
  | [], _, _ => rfl
  | [c], r, h => by
    cases r with
    | nil => exact h
    | cons d r2 =>
      have h1 := (andE h).1
      show (!pyWs c || decide (c = ' ')) = true
      by_cases hws : pyWs c
      · rw [if_pos hws] at h1
        simp only [hws, Bool.not_true, Bool.false_or]
        exact (andE h1).1
      · simp [hws]
  | c :: e :: l2, r, h => by
    have h1 := (andE h).1
    have h2 := wsNorm_append_left (e :: l2) r (andE h).2
    show ((if pyWs c then decide (c = ' ') && !pyWs e else true) &&
      wsNorm (e :: l2)) = true
    rw [h2, h1]
    rfl

theorem pyStrip_decomp (s : List Char) :
    ∃ t r, s = t ++ (pyStrip s ++ r) := by
  obtain ⟨t, ht⟩ := List.dropWhile_suffix (l := s) pyWs
  have hsuf : (s.dropWhile pyWs).reverse.dropWhile pyWs <:+
      (s.dropWhile pyWs).reverse := List.dropWhile_suffix pyWs
  have hpre : ((s.dropWhile pyWs).reverse.dropWhile pyWs).reverse <+:
      s.dropWhile pyWs := List.reverse_suffix.mp (by simpa using hsuf)
  obtain ⟨r, hr⟩ := hpre
  refine ⟨t, r, ?_⟩
  conv_lhs => rw [← ht, ← hr]
  rfl

theorem wsNorm_pyStrip (s : List Char) (h : wsNorm s = true) :
    wsNorm (pyStrip s) = true := by
  obtain ⟨t, r, hs⟩ := pyStrip_decomp s
  rw [hs] at h
  exact wsNorm_append_left _ r (wsNorm_append_right t _ h)

/-! ### Claim C9 -/

/-- Claim C9 (counterexample): `clean` is not idempotent.  The doubly
escaped ampersand `"&amp;amp;"` cleans to `"&amp;"` (the entity decoder
consumes `&amp;` and leaves the remaining `amp;` untouched), and a second
clean decodes it again to `"&"`. -/
theorem C9_clean_not_idempotent :
    clean_text ("&amp;amp;".toList) = "&amp;".toList ∧
    clean_text ("&amp;".toList) = "&".toList ∧
    clean_text (clean_text "&amp;amp;".toList) ≠
      clean_text "&amp;amp;".toList := by
  refine ⟨by decide, by decide, by decide⟩

/-- Claim C9 (amended): `clean` is idempotent on every input whose cleaned
form is plain ASCII text containing none of the trigger characters of the
substitution patterns — no `'&'` (entities), `'<'` (tags), `':'` (URLs and
timestamps), `'@'` (emails) or `'-'` (bylines); the non-ASCII triggers
`'–'` and `'©'` are excluded by the ASCII condition.  In general a second
clean can differ from the first (double entity decoding, newly exposed
line-initial bylines). -/
theorem C9_idempotent_on_plain_ascii (x : List Char)
    (hascii : ∀ c ∈ clean_text x, c.toNat < 128)
    (hamp : '&' ∉ clean_text x) (hlt : '<' ∉ clean_text x)
    (hcolon : ':' ∉ clean_text x) (hat : '@' ∉ clean_text x)
    (hdash : '-' ∉ clean_text x) :
    clean_text (clean_text x) = clean_text x := by
  by_cases hg : x = [] ∨ pyStrip x = []
  · have h0 : clean_text x = [] := by unfold clean_text; rw [if_pos hg]
    rw [h0]
    unfold clean_text
    rw [if_pos (Or.inl rfl)]
  · have hyz : clean_text x = pyStrip (collapseWs (nfkd (copyrightSub
        (timestampSub (bylineSub (emailSub (urlSub (tagSub
          (htmlUnescape x)))))))))  := by
      unfold clean_text
      rw [if_neg hg]
    set y := clean_text x with hy
    have hce : cleanEdges y := hyz ▸ cleanEdges_pyStrip _
    have hwn : wsNorm y = true := by
      rw [hyz]
      exact wsNorm_pyStrip _ (collapseWs_out _)
    by_cases hy0 : y = []
    · rw [hy0]
      unfold clean_text
      rw [if_pos (Or.inl rfl)]
    · have hstrip : pyStrip y = y := pyStrip_eq_of_cleanEdges y hce
      have hnd : '–' ∉ y := fun hm => absurd (hascii _ hm) (by decide)
      have hcp : '©' ∉ y := fun hm => absurd (hascii _ hm) (by decide)
      show clean_text y = y
      unfold clean_text
      rw [if_neg (by
        push_neg
        exact ⟨hy0, fun h => hy0 (by rw [← hstrip]; exact h)⟩)]
      rw [htmlUnescape_id y hamp, tagSub_id y hlt, urlSub_id y hcolon,
        emailSub_id y hat, bylineSub_id y hdash hnd,
        timestampSub_id y hcolon, copyrightSub_id y hcp, nfkd_id y hascii,
        collapseWs_id y hwn, hstrip]

/-- Witness for C9 (amended) on a concrete plain-ASCII input. -/
theorem C9_idempotent_on_plain_ascii_witness :
    clean_text (clean_text "Hello world".toList) =
      clean_text "Hello world".toList :=
  C9_idempotent_on_plain_ascii "Hello world".toList (by decide) (by decide)
    (by decide) (by decide) (by decide) (by decide)

end NewsRAG
